import Mathlib

/-!
Verification of the incremental render-synchronization engine of the
SublimeTextTerminalView repository.

The definitions below are a shallow embedding of the repository's Python
sources:

* `src/terminal_emulator.py` — the `PyteTerminalEmulator` wrapper, the
  `CustomHistoryScreen.scroll_to_bottom` loop and the
  `convert_pyte_buffer_to_colormap` color-run compressor;
* `src/sublime_terminal_buffer.py` — the `TerminalViewUpdate` render pass
  (`run`, `_update_scrolling`, `_update_cursor`, `_update_lines`,
  `_remove_color_regions_on_line`, `_update_line_content`,
  `_update_line_colors`, `_register_color_region`,
  `_get_line_start_and_end_points`).

Python dicts are embedded as association lists with insert-or-overwrite
semantics (a new key is appended, an existing key keeps its place), which
matches CPython's insertion-ordered dictionaries; Python sets of small
naturals are embedded as duplicate-free lists iterated in ascending
order.  The parts of the bundled pyte
library that the wrapper delegates to (paging, display, resize of the
screen grid) are not under `src/` and are modelled from the spec; each such
definition carries a doc comment saying so.
-/

namespace TerminalView

/-- The fields of a pyte buffer cell (`Char`) that the color-run compressor
reads: foreground color name, background color name, reverse-video flag. -/
structure TChar where
  fg : String
  bg : String
  reverse : Bool
deriving DecidableEq, Repr

instance : Inhabited TChar := ⟨⟨"default", "default", false⟩⟩

/-- Background normalization of `convert_pyte_buffer_to_colormap`: a
`"default"` background renders as `"black"`. -/
def normBg (c : TChar) : String :=
  if c.bg = "default" then "black" else c.bg

/-- Foreground normalization of `convert_pyte_buffer_to_colormap`: a
`"default"` foreground renders as `"white"`. -/
def normFg (c : TChar) : String :=
  if c.fg = "default" then "white" else c.fg

/-- The effective color pair of a cell, exactly as computed inside the loop
of `convert_pyte_buffer_to_colormap`: normalized `(bg, fg)`, swapped to
`(fg, bg)` when the cell has reverse video. -/
def effColor (c : TChar) : String × String :=
  if c.reverse then (normFg c, normBg c) else (normBg c, normFg c)

/-- The baseline color pair `("black", "white")` that represents "no
highlighting needed" in `convert_pyte_buffer_to_colormap`. -/
def baselineColor : String × String := ("black", "white")

/-- The value stored per run by the compressor: the Python dict
`{"color": last_color, "field_length": field_length}`. -/
structure ColorDict where
  color : String × String
  field_length : Nat
deriving DecidableEq, Repr

/-- A per-row color dict `start_offset -> ColorDict`, in insertion order. -/
abbrev RowMap := List (Nat × ColorDict)

/-- The full color map `line_index -> RowMap`, in insertion order. -/
abbrev ColorMap := List (Nat × RowMap)

/-- Python dict assignment `m[k] = v` on a row map: overwrite in place if
the key exists, otherwise append. -/
def dictInsert (m : RowMap) (k : Nat) (v : ColorDict) : RowMap :=
  if m.any (fun p => decide (p.1 = k)) then
    m.map (fun p => if p.1 = k then (k, v) else p)
  else
    m ++ [(k, v)]

/-- Python dict lookup on the outer color map. -/
def cmLookup (cm : ColorMap) (k : Nat) : Option RowMap :=
  (cm.find? (fun p => decide (p.1 = k))).map Prod.snd

/-- Python dict assignment on the outer color map. -/
def cmSet (cm : ColorMap) (k : Nat) (v : RowMap) : ColorMap :=
  if cm.any (fun p => decide (p.1 = k)) then
    cm.map (fun p => if p.1 = k then (k, v) else p)
  else
    cm ++ [(k, v)]

/-- The per-character loop of `convert_pyte_buffer_to_colormap`
(`for char in line.values()`), with the running state
`last_color`, `last_index`, `field_length`, `char_index` and the row's dict
made explicit.  The write guarded by
`if last_color != ("black", "white")` at the end of the loop body is inside
the `for` loop in the source, so it repeatedly overwrites the entry of the
currently open run with its length so far. -/
def lineLoop : List TChar → (String × String) → Nat → Nat → Nat → RowMap → RowMap
  | [], _, _, _, _, m => m
  | ch :: rest, lastColor, lastIndex, fieldLength, charIndex, m =>
    let color := effColor ch
    if lastColor = color then
      let fl := fieldLength + 1
      let m2 := if lastColor ≠ baselineColor then dictInsert m lastIndex ⟨lastColor, fl⟩ else m
      lineLoop rest lastColor lastIndex fl (charIndex + 1) m2
    else
      let m1 := if lastColor ≠ baselineColor then dictInsert m lastIndex ⟨lastColor, fieldLength⟩ else m
      let m2 := if color ≠ baselineColor then dictInsert m1 charIndex ⟨color, 1⟩ else m1
      lineLoop rest color charIndex 1 (charIndex + 1) m2

/-- Processing of one line by `convert_pyte_buffer_to_colormap`: the loop
starts from `last_color` initialized from `line[0]` (with the same
normalization and reverse handling), `last_index = 0`, `field_length = 0`
and `char_index = 0`; an empty line is skipped (`continue`). -/
def processLine (line : List TChar) (start : RowMap) : RowMap :=
  match line with
  | [] => start
  | c0 :: _ => lineLoop line (effColor c0) 0 0 0 start

/-- The loop of `convert_pyte_buffer_to_colormap` over the passed line
indices.  Faithful to the source: an index beyond the buffer executes
`break`, which abandons ALL remaining indices; an empty line is skipped;
the row's key is created in the outer dict only when a run is inserted. -/
def convertLoop (buffer : List (List TChar)) : List Nat → ColorMap → ColorMap
  | [], cm => cm
  | idx :: rest, cm =>
    if buffer.length ≤ idx then
      cm
    else
      let res := processLine (buffer.getD idx []) ((cmLookup cm idx).getD [])
      let cm2 := if res = [] then cm else cmSet cm idx res
      convertLoop buffer rest cm2

/-- Embedding of `convert_pyte_buffer_to_colormap(buffer, lines)`. -/
def convert_pyte_buffer_to_colormap (buffer : List (List TChar)) (lines : List Nat) : ColorMap :=
  convertLoop buffer lines []

/-- Modelled from the spec (section 4.3, Color Run Compressor algorithm):
scan left to right accumulating a run while the effective color pair is
unchanged, close the run on a color change or at end of row, and emit it
only when its color pair differs from the baseline `("black", "white")`.
`pos` is the start offset of the first remaining cell.  This is the
spec-side definition a refinement theorem compares the source loop with. -/
def specRunsFrom : List (String × String) → Nat → List (Nat × ColorDict)
  | [], _ => []
  | c :: rest, pos =>
    let k := (rest.takeWhile (fun x => decide (x = c))).length + 1
    let tail := rest.dropWhile (fun x => decide (x = c))
    let rs := specRunsFrom tail (pos + k)
    if c = baselineColor then rs else (pos, ⟨c, k⟩) :: rs
termination_by cs _ => cs.length
decreasing_by
  have hdw : (rest.dropWhile (fun x => decide (x = c))).length ≤ rest.length := by
    induction rest with
    | nil => simp
    | cons x xs ih =>
      by_cases hx : (decide (x = c)) = true
      · rw [List.dropWhile_cons, if_pos hx]
        simp only [List.length_cons]
        omega
      · rw [List.dropWhile_cons, if_neg hx]
  simp only [List.length_cons]
  omega

/-- Spec-side runs of one row: the maximal-merge, baseline-omitting run
decomposition of the row's effective color pairs, starting at offset 0. -/
def specRuns (line : List TChar) : List (Nat × ColorDict) :=
  specRunsFrom (line.map effColor) 0

/-- Proof-side helper describing the loop's partially recorded open run:
the row dict holds the closed runs `base` plus, when the open run's color
is not the baseline, an entry for the open run at its start index. -/
def recordOpen (base : RowMap) (i : Nat) (c : String × String) (fl : Nat) : RowMap :=
  if c = baselineColor then base else base ++ [(i, ⟨c, fl⟩)]

/-- A position is covered by some emitted run. -/
def coveredAt (runs : RowMap) (j : Nat) : Prop :=
  ∃ p ∈ runs, p.1 ≤ j ∧ j < p.1 + p.2.field_length

instance (runs : RowMap) (j : Nat) : Decidable (coveredAt runs j) :=
  inferInstanceAs (Decidable (∃ p ∈ runs, p.1 ≤ j ∧ j < p.1 + p.2.field_length))

/-- The cell at absolute position `j` exists and has a non-baseline
effective color; spec-side description of "covered". -/
def runCover (cs : List (String × String)) (pos j : Nat) : Prop :=
  pos ≤ j ∧ j - pos < cs.length ∧ cs.getD (j - pos) baselineColor ≠ baselineColor

/-- Spec-side properties of every emitted run: non-baseline color, positive
length, in-bounds span, and every covered cell has exactly the run's
color. -/
def runProps (cs : List (String × String)) (pos : Nat) (p : Nat × ColorDict) : Prop :=
  p.2.color ≠ baselineColor ∧ 1 ≤ p.2.field_length ∧ pos ≤ p.1 ∧
  p.1 + p.2.field_length ≤ pos + cs.length ∧
  ∀ j, p.1 ≤ j → j < p.1 + p.2.field_length → cs.getD (j - pos) baselineColor = p.2.color

/-- Statement of claim C1 at a buffer, a dirty index list and a processed
index: the emitted entry equals the spec-side maximal-merge run list, the
runs cover exactly the cells with non-baseline effective color, each run
records that color pair and a positive in-bounds length with every covered
cell of that color, and runs with touching spans never share a color
pair. -/
def C1Prop (buffer : List (List TChar)) (lines : List Nat) (idx : Nat) : Prop :=
  ((cmLookup (convert_pyte_buffer_to_colormap buffer lines) idx).getD []
      = specRuns (buffer.getD idx [])) ∧
  (∀ j, coveredAt ((cmLookup (convert_pyte_buffer_to_colormap buffer lines) idx).getD []) j
      ↔ (j < (buffer.getD idx []).length ∧
         effColor ((buffer.getD idx []).getD j default) ≠ baselineColor)) ∧
  (∀ p ∈ (cmLookup (convert_pyte_buffer_to_colormap buffer lines) idx).getD [],
      p.2.color ≠ baselineColor ∧ 1 ≤ p.2.field_length ∧
      p.1 + p.2.field_length ≤ (buffer.getD idx []).length ∧
      ∀ j, p.1 ≤ j → j < p.1 + p.2.field_length →
        effColor ((buffer.getD idx []).getD j default) = p.2.color) ∧
  (∀ p q, p ∈ (cmLookup (convert_pyte_buffer_to_colormap buffer lines) idx).getD [] →
      q ∈ (cmLookup (convert_pyte_buffer_to_colormap buffer lines) idx).getD [] →
      q.1 = p.1 + p.2.field_length → q.2.color ≠ p.2.color)

/-- A cell with red foreground on default background: effective color pair
`("black", "red")`, not the baseline. -/
def redChar : TChar := ⟨"red", "default", false⟩

/-- A fully unstyled cell: effective color pair is exactly the baseline. -/
def defaultChar : TChar := ⟨"default", "default", false⟩

/-- State of the wrapped pyte screen as seen through
`PyteTerminalEmulator`.  `dirty` is the screen's dirty set of row indices
(a Python set of small naturals), `display` the rendered rows of the
current viewport, `buffer` the styled cell grid, `cursorObj` the screen's
cursor object (`none` when absent) holding `(x, y)`, `position`/`size` the
scrollback paging state of `screen.history`, `pageStep` the positive line
count one paging step moves (pyte derives it from the screen height and the
configured ratio), `lines`/`cols` the screen dimensions. -/
structure EmuState where
  dirty : List Nat
  display : List String
  buffer : List (List TChar)
  cursorObj : Option (Nat × Nat)
  position : Nat
  size : Nat
  pageStep : Nat
  lines : Nat
  cols : Nat
deriving DecidableEq

/-- Modelled from the spec (4.2, pyte HistoryScreen.next_page, not under
src/): moves the paging offset toward live by one page, at least one line,
clamped to `[0, size]`; a no-op when already live. -/
def nextPage (e : EmuState) : EmuState :=
  if e.position < e.size then
    { e with position := e.position + min (e.size - e.position) (max 1 e.pageStep) }
  else e

/-- Modelled from the spec (4.2, pyte HistoryScreen.prev_page, not under
src/): moves the paging offset away from live by one page, clamped at 0
(Nat subtraction). -/
def prevPage (e : EmuState) : EmuState :=
  { e with position := e.position - max 1 e.pageStep }

/-- Embedding of `CustomHistoryScreen.scroll_to_bottom` (src): loop
`while self.history.position < self.history.size: self.next_page()`. -/
def scroll_to_bottom (e : EmuState) : EmuState :=
  if h : e.position < e.size then scroll_to_bottom (nextPage e) else e
termination_by e.size - e.position
decreasing_by
  simp only [nextPage, if_pos h]
  omega

/-- Embedding of `PyteTerminalEmulator.feed` (src): always scrolls to the
bottom first, then hands the bytes to the byte stream attached to the
screen; the stream's cell mutations are the external protocol engine,
abstracted as `interp`. -/
def feedWith (interp : EmuState → List Nat → EmuState) (e : EmuState)
    (data : List Nat) : EmuState :=
  interp (scroll_to_bottom e) data

/-- Modelled from the spec (4.1, pyte Screen.resize, not under src/):
reallocates the grid to the new bounds (new rows blank), clamps the cursor
into the new bounds; paging state and dirty set untouched. -/
def resizeScreen (e : EmuState) (newLines newCols : Nat) : EmuState :=
  { e with
    lines := newLines
    cols := newCols
    display := (List.range newLines).map (fun i => e.display.getD i "")
    buffer := (List.range newLines).map (fun i => (e.buffer.getD i []).take newCols)
    cursorObj := e.cursorObj.map (fun p => (min p.1 (newCols - 1), min p.2 (newLines - 1))) }

/-- Python set union update `s.update(other)`: appends the elements of
`other` not already present. -/
def setUnion (a b : List Nat) : List Nat :=
  a ++ b.filter (fun x => decide (¬ x ∈ a))

/-- Embedding of `PyteTerminalEmulator.resize` (src): scroll to bottom,
mark dirty every row index below `max(lines, self._screen.lines)`, then
resize the screen. -/
def emuResize (e : EmuState) (newLines newCols : Nat) : EmuState :=
  let e1 := scroll_to_bottom e
  let e2 := { e1 with dirty := setUnion e1.dirty (List.range (max newLines e1.lines)) }
  resizeScreen e2 newLines newCols

/-- Embedding of `PyteTerminalEmulator.dirty_lines` (src): a dict mapping
each dirty row index to its display row, or to `None` when the index lies
beyond the display (after a shrink).  Python set iteration order is
unspecified; it is embedded as ascending order, which is also the order the
view updater sorts into. -/
def dirty_lines (e : EmuState) : List (Nat × Option String) :=
  (List.insertionSort (· ≤ ·) e.dirty).map (fun i =>
    (i, if e.display.length ≤ i then none else some (e.display.getD i "")))

/-- Embedding of `PyteTerminalEmulator.clear_dirty` (src). -/
def clear_dirty (e : EmuState) : EmuState :=
  { e with dirty := [] }

/-- Embedding of `PyteTerminalEmulator.cursor` (src): returns
`(cursor.y, cursor.x)` when the screen has a cursor object, `(0, 0)`
otherwise. -/
def emuCursor (e : EmuState) : Nat × Nat :=
  match e.cursorObj with
  | some p => (p.2, p.1)
  | none => (0, 0)

/-- A concrete emulator state used by witnesses: detached paging position
(0 of 3), one dirty row, a two-row display. -/
def sampleEmu : EmuState where
  dirty := [0]
  display := ["hi", ""]
  buffer := [[redChar], []]
  cursorObj := some (1, 0)
  position := 0
  size := 3
  pageStep := 2
  lines := 2
  cols := 80

/-- Statement of claim C4 at an emulator state and a resize request:
resizing forces the live position, marks dirty every row index below
`max(newLines, previousLines)`, and for a shrink every removed row index
appears exactly once in `dirty_lines` mapped to `None` (a deletion, not an
error); for a growth the dirty marking covers all new rows because
`max newLines e.lines = newLines`. -/
def C4Prop (e : EmuState) (newLines newCols : Nat) : Prop :=
  (emuResize e newLines newCols).position = (emuResize e newLines newCols).size ∧
  (∀ i, i < max newLines e.lines → i ∈ (emuResize e newLines newCols).dirty) ∧
  (∀ i, newLines ≤ i → i < e.lines →
    (dirty_lines (emuResize e newLines newCols)).count (i, none) = 1)

/-- Generic Python-dict lookup on an association list keyed by `Nat`. -/
def alLookup {β : Type} (m : List (Nat × β)) (k : Nat) : Option β :=
  (m.find? (fun p => decide (p.1 = k))).map Prod.snd

/-- Generic Python-dict assignment: overwrite in place, else append. -/
def alSet {β : Type} (m : List (Nat × β)) (k : Nat) (v : β) : List (Nat × β) :=
  if m.any (fun p => decide (p.1 = k)) then
    m.map (fun p => if p.1 = k then (k, v) else p)
  else
    m ++ [(k, v)]

/-- Generic Python-dict deletion (`del m[k]`), a no-op on an absent key. -/
def alErase {β : Type} (m : List (Nat × β)) (k : Nat) : List (Nat × β) :=
  m.filter (fun p => decide (p.1 ≠ k))

/-- Scroll request granularity, as stored in the view setting
`terminal_view_scroll` by `TerminalViewScroll.run` (src): `"line"` or
`"page"`. -/
inductive Gran where
  | line
  | page
deriving DecidableEq, Repr

/-- Scroll request direction: `"up"` or `"down"`. -/
inductive ScrollDir where
  | up
  | down
deriving DecidableEq, Repr

/-- View-side state of `SublimeTerminalBuffer` and the settings the render
pass reads: the queued scroll request, the last recorded cursor position
(`terminal_view_last_cursor_pos`, `none` when invalidated), the per-row
cache `_buffer_contents` of rendered text (content plus newline), the
per-row deques `_color_regions` of registered region keys (front of deque
first), and the `terminal_view_show_colors` flag. -/
structure ViewState where
  scrollReq : Option (Gran × ScrollDir)
  lastCursorPos : Option (Nat × Nat)
  bufferContents : List (Nat × String)
  colorRegions : List (Nat × List String)
  showColors : Bool
deriving DecidableEq

/-- One edit the render pass applies to the hosting Sublime view:
`erase_regions`, `replace`, `erase`, `add_regions`, selection placement at
`text_point(row, col)`, and the viewport reset. -/
inductive Edit where
  | eraseRegions (key : String)
  | replace (a b : Nat) (content : String)
  | erase (a b : Nat)
  | addRegions (key : String) (a b : Nat) (scope : String)
  | setCursor (row col : Nat)
  | setViewport
deriving DecidableEq, Repr

/-- Whether an edit is the cursor (selection) placement. -/
def Edit.isCursor : Edit → Bool
  | Edit.setCursor _ _ => true
  | _ => false

/-- Combined state the render pass acts on. -/
structure St where
  emu : EmuState
  view : ViewState
deriving DecidableEq

/-- Embedding of `TerminalViewUpdate._get_line_start_and_end_points` (src):
the start point sums the cached lengths of all cached rows with strictly
lower index; the end point adds the row's own cached length when cached. -/
def getLineStartAndEnd (bc : List (Nat × String)) (n : Nat) : Nat × Nat :=
  let start := (List.range n).foldl
    (fun acc i => match alLookup bc i with
      | some s => acc + s.length
      | none => acc) 0
  (start, start + (match alLookup bc n with
    | some s => s.length
    | none => 0))

/-- The cached length of row `i`: the length of its cached content when
present, 0 otherwise (spec-side summand). -/
def cachedLen (bc : List (Nat × String)) (i : Nat) : Nat :=
  match alLookup bc i with
  | some s => s.length
  | none => 0

/-- Embedding of `TerminalViewUpdate._remove_color_regions_on_line` (src):
pops the row's deque from the left until empty, erasing each region key in
that order; the emptied deque stays registered under the row key. -/
def removeColorRegionsOnLine (cr : List (Nat × List String)) (n : Nat) :
    (List (Nat × List String)) × List Edit :=
  match alLookup cr n with
  | none => (cr, [])
  | some dq => (alSet cr n [], dq.map Edit.eraseRegions)

/-- Embedding of `TerminalViewUpdate._register_color_region` (src): pushes
the key with `appendleft` onto the row's deque, creating the deque if
needed. -/
def registerColorRegion (cr : List (Nat × List String)) (n : Nat) (key : String) :
    List (Nat × List String) :=
  match alLookup cr n with
  | some dq => alSet cr n (key :: dq)
  | none => alSet cr n [key]

/-- Embedding of `TerminalViewUpdate._update_line_content` (src): compute
the row's span from the cache, then either erase it (content `None`, cache
entry dropped) or replace it with content plus newline (cache updated). -/
def updateLineContent (bc : List (Nat × String)) (n : Nat) (content : Option String) :
    (List (Nat × String)) × List Edit :=
  let se := getLineStartAndEnd bc n
  match content with
  | none => (alErase bc n, [Edit.erase se.1 se.2])
  | some c => (alSet bc n (c ++ "\n"), [Edit.replace se.1 se.2 (c ++ "\n")])

/-- The region scope string `terminalview.<bg>_<fg>` built by
`_update_line_colors`. -/
def colorScope (c : String × String) : String :=
  "terminalview." ++ c.1 ++ "_" ++ c.2

/-- The region key `"<line>,<idx>"` built by `_update_line_colors`. -/
def regionKey (n idx : Nat) : String :=
  toString n ++ "," ++ toString idx

/-- Embedding of `TerminalViewUpdate._update_line_colors` (src): for each
run of the row's color dict in order, recompute the line start from the
cache, add a region spanning the run and register its key. -/
def updateLineColors (v : ViewState) (n : Nat) : RowMap → ViewState × List Edit
  | [] => (v, [])
  | p :: rest =>
    let a := (getLineStartAndEnd v.bufferContents n).1
    let colorStart := a + p.1
    let key := regionKey n p.1
    let e := Edit.addRegions key colorStart (colorStart + p.2.field_length)
      (colorScope p.2.color)
    let v1 := { v with colorRegions := registerColorRegion v.colorRegions n key }
    let r := updateLineColors v1 n rest
    (r.1, e :: r.2)

/-- One iteration of the `_update_lines` loop (src): remove the row's old
regions, update its content, then apply its colors when the color map has
an entry for it. -/
def processDirtyLine (v : ViewState) (cm : ColorMap) (n : Nat) (content : Option String) :
    ViewState × List Edit :=
  let r1 := removeColorRegionsOnLine v.colorRegions n
  let v1 := { v with colorRegions := r1.1 }
  let r2 := updateLineContent v1.bufferContents n content
  let v2 := { v1 with bufferContents := r2.1 }
  match cmLookup cm n with
  | some rm =>
    let r3 := updateLineColors v2 n rm
    (r3.1, r1.2 ++ r2.2 ++ r3.2)
  | none => (v2, r1.2 ++ r2.2)

/-- Python dict access `dirty_lines[line_no]` on the dirty-line dict. -/
def dlLookup (dl : List (Nat × Option String)) (n : Nat) : Option String :=
  (((dl.find? (fun p => decide (p.1 = n))).map Prod.snd)).join

/-- The order `_update_lines` (src) processes dirty rows in:
`sorted(dirty_lines.keys())`. -/
def processOrder (dl : List (Nat × Option String)) : List Nat :=
  List.insertionSort (· ≤ ·) (dl.map Prod.fst)

/-- The `_update_lines` loop (src) over the sorted dirty rows. -/
def updateLinesGo (cm : ColorMap) (dl : List (Nat × Option String)) :
    List Nat → ViewState → ViewState × List Edit
  | [], v => (v, [])
  | n :: rest, v =>
    let r := processDirtyLine v cm n (dlLookup dl n)
    let r2 := updateLinesGo cm dl rest r.1
    (r2.1, r.2 ++ r2.2)

/-- Embedding of `TerminalViewUpdate._update_lines` (src). -/
def updateLines (v : ViewState) (dl : List (Nat × Option String)) (cm : ColorMap) :
    ViewState × List Edit :=
  updateLinesGo cm dl (processOrder dl) v

/-- Embedding of `TerminalViewUpdate._update_cursor` (src): no edit when a
recorded position exists and equals the cursor; otherwise place the
selection and record the position. -/
def updateCursor (s : St) : St × List Edit :=
  let cp := emuCursor s.emu
  match s.view.lastCursorPos with
  | some l =>
    if l = cp then (s, [])
    else ({ s with view := { s.view with lastCursorPos := some cp } },
      [Edit.setCursor cp.1 cp.2])
  | none => ({ s with view := { s.view with lastCursorPos := some cp } },
      [Edit.setCursor cp.1 cp.2])

/-- Embedding of `TerminalViewUpdate._update_scrolling` (src): a queued
line-granularity request calls `prev_line`/`next_line`, which
`PyteTerminalEmulator` does not define — Python raises `AttributeError`
before the request is cleared; a page request applies
`prev_page`/`next_page` and clears the request. -/
def updateScrolling (s : St) : Except String St :=
  match s.view.scrollReq with
  | none => Except.ok s
  | some (g, d) =>
    match g with
    | Gran.line => Except.error "AttributeError"
    | Gran.page =>
      let emu2 := match d with
        | ScrollDir.up => prevPage s.emu
        | ScrollDir.down => nextPage s.emu
      Except.ok ⟨emu2, { s.view with scrollReq := none }⟩

/-- Everything `TerminalViewUpdate.run` (src) does before the final cursor
update: apply pending scrolling, and if there are dirty lines, reset the
viewport, invalidate the recorded cursor position, build the color map for
the dirty keys when colors are enabled, rewrite the dirty rows and clear
the dirty set. -/
def preCursor (s : St) : Except String (St × List Edit) :=
  match updateScrolling s with
  | Except.error e => Except.error e
  | Except.ok s1 =>
    let dl := dirty_lines s1.emu
    if 0 < dl.length then
      let v1 := { s1.view with lastCursorPos := none }
      let cm := if v1.showColors
        then convert_pyte_buffer_to_colormap s1.emu.buffer (dl.map Prod.fst)
        else []
      let r := updateLines v1 dl cm
      Except.ok (⟨clear_dirty s1.emu, r.1⟩, Edit.setViewport :: r.2)
    else
      Except.ok (s1, [])

/-- Embedding of one full render pass, `TerminalViewUpdate.run` (src): the
pre-cursor phase followed by the cursor update, whose edits come last.  The
`terminal_view_last_update` timestamp write is not modelled. -/
def renderPass (s : St) : Except String (St × List Edit) :=
  match preCursor s with
  | Except.error e => Except.error e
  | Except.ok (s2, es) =>
    let r := updateCursor s2
    Except.ok (r.1, es ++ r.2)

/-- Statement of claim C2 for the state left by a successful render pass:
the dirty set is empty, `dirty_lines()` is the empty mapping, the cursor
equals the recorded position, and a second pass succeeds returning the same
state with ZERO edits. -/
def C2Prop (s1 : St) : Prop :=
  s1.emu.dirty = ∅ ∧ dirty_lines s1.emu = [] ∧
  s1.view.lastCursorPos = some (emuCursor s1.emu) ∧
  renderPass s1 = Except.ok (s1, [])

/-- A concrete full state for witnesses: one dirty row, colors enabled, no
scroll request. -/
def sampleView : ViewState where
  scrollReq := none
  lastCursorPos := none
  bufferContents := []
  colorRegions := []
  showColors := true

def sampleSt : St := ⟨sampleEmu, sampleView⟩

/-- The state `renderPass` leaves behind on `sampleSt`, written out. -/
def sampleStAfter : St :=
  ⟨{ sampleEmu with dirty := ∅ },
   { scrollReq := none, lastCursorPos := some (0, 1),
     bufferContents := [(0, "hi\n")], colorRegions := [(0, ["0,0"])],
     showColors := true }⟩

/-- A state with a queued line-granularity scroll request. -/
def lineReqSt : St :=
  ⟨sampleEmu, { sampleView with scrollReq := some (Gran.line, ScrollDir.up) }⟩

/-- A state with a queued page-granularity scroll request. -/
def pageReqSt : St :=
  ⟨sampleEmu, { sampleView with scrollReq := some (Gran.page, ScrollDir.up) }⟩

/-- Helper for the spec-side run decomposition: length of the longest
`dropWhile` suffix never exceeds the list length (used for termination). -/
theorem length_dropWhile_le_self {α : Type} (p : α → Bool) (l : List α) :
    (l.dropWhile p).length ≤ l.length := by
  induction l with
  | nil => simp [List.dropWhile]
  | cons x xs ih =>
    by_cases h : p x
    · simp [List.dropWhile, h]
      omega
    · simp [List.dropWhile, h]

theorem dictInsert_new (m : RowMap) (k : Nat) (v : ColorDict)
    (h : ∀ p ∈ m, p.1 ≠ k) : dictInsert m k v = m ++ [(k, v)] := by
  unfold dictInsert
  rw [if_neg]
  simp only [List.any_eq_true, decide_eq_true_eq, not_exists]
  intro p hp
  exact h p hp.1 hp.2

theorem dictInsert_overwrite (m : RowMap) (k : Nat) (v v2 : ColorDict)
    (h : ∀ p ∈ m, p.1 ≠ k) :
    dictInsert (m ++ [(k, v)]) k v2 = m ++ [(k, v2)] := by
  unfold dictInsert
  rw [if_pos]
  · rw [List.map_append]
    congr 1
    · conv_rhs => rw [← List.map_id m]
      apply List.map_congr_left
      intro p hp
      rw [if_neg (h p hp)]
      rfl
    · simp
  · simp only [List.any_eq_true, decide_eq_true_eq]
    exact ⟨(k, v), by simp⟩

theorem takeWhile_replicate_append {α : Type} [DecidableEq α] (c : α) (n : Nat)
    (l : List α) (hhead : ∀ x, l.head? = some x → x ≠ c) :
    (List.replicate n c ++ l).takeWhile (fun x => decide (x = c)) = List.replicate n c ∧
    (List.replicate n c ++ l).dropWhile (fun x => decide (x = c)) = l := by
  induction n with
  | zero =>
    simp only [List.replicate_zero, List.nil_append]
    cases l with
    | nil => simp
    | cons x xs =>
      have hx : x ≠ c := hhead x rfl
      constructor
      · rw [List.takeWhile_cons, if_neg (by simp [hx])]
      · rw [List.dropWhile_cons, if_neg (by simp [hx])]
  | succ n ih =>
    constructor
    · rw [List.replicate_succ, List.cons_append, List.takeWhile_cons,
        if_pos (show (decide (c = c)) = true by simp), ih.1]
    · rw [List.replicate_succ, List.cons_append, List.dropWhile_cons,
        if_pos (show (decide (c = c)) = true by simp), ih.2]

theorem specRunsFrom_replicate_append (fl : Nat) (hfl : 1 ≤ fl) (c : String × String)
    (l : List (String × String)) (hhead : ∀ x, l.head? = some x → x ≠ c) (i : Nat) :
    specRunsFrom (List.replicate fl c ++ l) i
      = (if c = baselineColor then [] else [(i, ⟨c, fl⟩)]) ++ specRunsFrom l (i + fl) := by
  obtain ⟨n, rfl⟩ : ∃ n, fl = n + 1 := ⟨fl - 1, by omega⟩
  have htw := takeWhile_replicate_append c n l hhead
  rw [List.replicate_succ, List.cons_append, specRunsFrom]
  simp only [htw.1, htw.2, List.length_replicate]
  by_cases hb : c = baselineColor
  · simp [hb]
  · simp [hb, Nat.add_comm]

/-- Core bridge invariant: running the source loop from mid-run state
(`fl ≥ 1` cells of color `c` already consumed starting at offset `i`, all
closed runs in `base` strictly before `i`) produces exactly the closed runs
followed by the spec-side run decomposition of the open run plus the rest
of the line. -/
theorem lineLoop_spec (rest : List TChar) :
    ∀ (c : String × String) (i fl : Nat) (base : RowMap),
      1 ≤ fl → (∀ p ∈ base, p.1 < i) →
      lineLoop rest c i fl (i + fl) (recordOpen base i c fl)
        = base ++ specRunsFrom (List.replicate fl c ++ rest.map effColor) i := by
  induction rest with
  | nil =>
    intro c i fl base hfl hbase
    show recordOpen base i c fl = _
    have h1 := specRunsFrom_replicate_append fl hfl c [] (by simp) i
    rw [List.append_nil] at h1
    rw [List.map_nil, List.append_nil, h1, specRunsFrom]
    unfold recordOpen
    by_cases hb : c = baselineColor
    · simp [hb]
    · simp [hb]
  | cons ch rest ih =>
    intro c i fl base hfl hbase
    have hbase2 : ∀ p ∈ base, p.1 ≠ i := fun p hp => Nat.ne_of_lt (hbase p hp)
    show lineLoop (ch :: rest) c i fl (i + fl) (recordOpen base i c fl) = _
    simp only [lineLoop]
    by_cases hc : c = effColor ch
    · rw [if_pos hc]
      have hm2 : (if c ≠ baselineColor then
            dictInsert (recordOpen base i c fl) i ⟨c, fl + 1⟩ else recordOpen base i c fl)
          = recordOpen base i c (fl + 1) := by
        unfold recordOpen
        by_cases hb : c = baselineColor
        · rw [if_neg (fun hcc => hcc hb), if_pos hb, if_pos hb]
        · rw [if_pos hb, if_neg hb, if_neg hb]
          exact dictInsert_overwrite base i ⟨c, fl⟩ ⟨c, fl + 1⟩ hbase2
      rw [hm2]
      have hidx : i + fl + 1 = i + (fl + 1) := by omega
      rw [hidx, ih c i (fl + 1) base (by omega) hbase]
      have hrep : List.replicate (fl + 1) c ++ rest.map effColor
          = List.replicate fl c ++ (ch :: rest).map effColor := by
        rw [List.replicate_succ', List.map_cons, ← hc]
        simp [List.append_assoc]
      rw [hrep]
    · rw [if_neg hc]
      have hm1 : (if c ≠ baselineColor then
            dictInsert (recordOpen base i c fl) i ⟨c, fl⟩ else recordOpen base i c fl)
          = recordOpen base i c fl := by
        unfold recordOpen
        by_cases hb : c = baselineColor
        · rw [if_neg (fun hcc => hcc hb), if_pos hb]
        · rw [if_pos hb, if_neg hb]
          exact dictInsert_overwrite base i ⟨c, fl⟩ ⟨c, fl⟩ hbase2
      have hkeys : ∀ p ∈ recordOpen base i c fl, p.1 < i + fl := by
        intro p hp
        unfold recordOpen at hp
        by_cases hb : c = baselineColor
        · rw [if_pos hb] at hp
          exact Nat.lt_of_lt_of_le (hbase p hp) (Nat.le_add_right i fl)
        · rw [if_neg hb] at hp
          rcases List.mem_append.mp hp with h1 | h1
          · exact Nat.lt_of_lt_of_le (hbase p h1) (Nat.le_add_right i fl)
          · simp only [List.mem_singleton] at h1
            subst h1
            omega
      have hm2 : (if effColor ch ≠ baselineColor then
            dictInsert (recordOpen base i c fl) (i + fl) ⟨effColor ch, 1⟩
            else recordOpen base i c fl)
          = recordOpen (recordOpen base i c fl) (i + fl) (effColor ch) 1 := by
        by_cases hb : effColor ch = baselineColor
        · rw [if_neg (fun hcc => hcc hb)]
          unfold recordOpen
          rw [if_pos hb]
        · rw [if_pos hb]
          conv_rhs => unfold recordOpen
          rw [if_neg hb]
          exact dictInsert_new _ _ _ (fun p hp => Nat.ne_of_lt (hkeys p hp))
      rw [hm1, hm2]
      rw [ih (effColor ch) (i + fl) 1 (recordOpen base i c fl) (by omega) hkeys]
      rw [List.map_cons,
        specRunsFrom_replicate_append fl hfl c (effColor ch :: rest.map effColor)
          (by intro x hx
              simp only [List.head?_cons, Option.some_inj] at hx
              subst hx
              exact fun h => hc h.symm) i]
      conv_lhs => rw [recordOpen]
      by_cases hb : c = baselineColor
      · simp [hb]
      · rw [if_neg hb]
        have hrep1 : List.replicate 1 (effColor ch) ++ rest.map effColor
            = effColor ch :: rest.map effColor := by
          simp [List.replicate_succ]
        rw [hrep1, if_neg hb, List.append_assoc]

/-- Processing a whole line from an empty row dict yields exactly the
spec-side run decomposition of the line. -/
theorem processLine_eq_specRuns (line : List TChar) :
    processLine line [] = specRuns line := by
  cases line with
  | nil =>
    show ([] : RowMap) = specRunsFrom [] 0
    rw [specRunsFrom]
  | cons c0 rest =>
    show lineLoop (c0 :: rest) (effColor c0) 0 0 0 [] = _
    simp only [lineLoop]
    rw [if_pos (trivial : True)]
    have hm : (if effColor c0 ≠ baselineColor then
          dictInsert ([] : RowMap) 0 ⟨effColor c0, 0 + 1⟩ else ([] : RowMap))
        = recordOpen [] 0 (effColor c0) 1 := by
      by_cases hb : effColor c0 = baselineColor
      · rw [if_neg (fun hcc => hcc hb)]
        unfold recordOpen
        rw [if_pos hb]
      · rw [if_pos hb]
        unfold recordOpen
        rw [if_neg hb]
        exact dictInsert_new [] 0 _ (by simp)
    rw [hm]
    have hinv := lineLoop_spec rest (effColor c0) 0 1 [] (by omega) (by simp)
    simp only [Nat.zero_add] at hinv ⊢
    rw [hinv]
    unfold specRuns
    have hrep1 : List.replicate 1 (effColor c0) ++ rest.map effColor
        = effColor c0 :: rest.map effColor := by
      simp [List.replicate_succ]
    rw [hrep1, List.map_cons, List.nil_append]

theorem dropWhile_head_ne {α : Type} (p : α → Bool) (l : List α) :
    ∀ x, (l.dropWhile p).head? = some x → p x = false := by
  induction l with
  | nil => intro x hx; simp at hx
  | cons a as ih =>
    intro x hx
    rw [List.dropWhile_cons] at hx
    by_cases ha : p a = true
    · rw [if_pos ha] at hx
      exact ih x hx
    · rw [if_neg ha] at hx
      simp only [List.head?_cons, Option.some_inj] at hx
      subst hx
      simpa using ha

theorem takeWhile_eq_replicate {α : Type} [DecidableEq α] (l : List α) (c : α) :
    l.takeWhile (fun x => decide (x = c))
      = List.replicate (l.takeWhile (fun x => decide (x = c))).length c := by
  rw [List.eq_replicate_iff]
  exact ⟨rfl, fun b hb => by simpa using List.mem_takeWhile_imp hb⟩

theorem cons_eq_replicate_append {α : Type} [DecidableEq α] (c : α) (rest : List α) :
    c :: rest = List.replicate ((rest.takeWhile (fun x => decide (x = c))).length + 1) c
      ++ rest.dropWhile (fun x => decide (x = c)) := by
  rw [List.replicate_succ, List.cons_append]
  congr 1
  conv_lhs => rw [← List.takeWhile_append_dropWhile (p := fun x => decide (x = c)) (l := rest)]
  congr 1
  exact takeWhile_eq_replicate rest c

theorem getD_replicate_append {α : Type} (c d : α) (k : Nat) (l : List α) (m : Nat) :
    (List.replicate k c ++ l).getD m d = if m < k then c else l.getD (m - k) d := by
  induction k generalizing m with
  | zero => simp
  | succ k ih =>
    rw [List.replicate_succ, List.cons_append]
    cases m with
    | zero => simp
    | succ m =>
      rw [List.getD_cons_succ, ih]
      by_cases h : m < k
      · rw [if_pos h, if_pos (by omega)]
      · rw [if_neg h, if_neg (by omega)]
        congr 1
        omega

/-- One-step unfolding of the spec-side run decomposition at a nonempty
list, with the branch on the baseline color pushed into an append. -/
theorem specRunsFrom_cons (c : String × String) (rest : List (String × String)) (pos : Nat) :
    specRunsFrom (c :: rest) pos
      = (if c = baselineColor then []
         else [(pos, ⟨c, (rest.takeWhile (fun x => decide (x = c))).length + 1⟩)])
        ++ specRunsFrom (rest.dropWhile (fun x => decide (x = c)))
             (pos + ((rest.takeWhile (fun x => decide (x = c))).length + 1)) := by
  rw [specRunsFrom]
  by_cases hb : c = baselineColor
  · simp [hb]
  · simp [hb]

theorem coveredAt_nil (j : Nat) : ¬ coveredAt [] j := by
  rintro ⟨p, hp, h⟩
  simp at hp

theorem coveredAt_append (a b : RowMap) (j : Nat) :
    coveredAt (a ++ b) j ↔ coveredAt a j ∨ coveredAt b j := by
  constructor
  · rintro ⟨p, hp, h⟩
    rcases List.mem_append.mp hp with h1 | h1
    · exact Or.inl ⟨p, h1, h⟩
    · exact Or.inr ⟨p, h1, h⟩
  · rintro (⟨p, hp, h⟩ | ⟨p, hp, h⟩)
    · exact ⟨p, List.mem_append.mpr (Or.inl hp), h⟩
    · exact ⟨p, List.mem_append.mpr (Or.inr hp), h⟩

theorem coveredAt_singleton (i : Nat) (c2 : String × String) (n j : Nat) :
    coveredAt [(i, ⟨c2, n⟩)] j ↔ (i ≤ j ∧ j < i + n) := by
  constructor
  · rintro ⟨p, hp, h⟩
    rw [List.mem_singleton] at hp
    subst hp
    exact h
  · intro h
    exact ⟨(i, ⟨c2, n⟩), by simp, h⟩

/-- Inductive step shared by both branches of the coverage proof. -/
theorem coverage_step (c : String × String) (rest : List (String × String)) (pos : Nat)
    (ih : ∀ j, coveredAt (specRunsFrom (rest.dropWhile (fun x => decide (x = c)))
        (pos + ((rest.takeWhile (fun x => decide (x = c))).length + 1))) j
      ↔ runCover (rest.dropWhile (fun x => decide (x = c)))
          (pos + ((rest.takeWhile (fun x => decide (x = c))).length + 1)) j) :
    ∀ j, coveredAt (specRunsFrom (c :: rest) pos) j ↔ runCover (c :: rest) pos j := by
  intro j
  rw [specRunsFrom_cons, coveredAt_append, ih j]
  set tk := (rest.takeWhile (fun x => decide (x = c))).length + 1 with htk
  set tail := rest.dropWhile (fun x => decide (x = c)) with htail
  have hk1 : 1 ≤ tk := by omega
  have hdec : c :: rest = List.replicate tk c ++ tail := cons_eq_replicate_append c rest
  unfold runCover
  have hlen : (c :: rest).length = tk + tail.length := by
    rw [hdec, List.length_append, List.length_replicate]
  have hget : (c :: rest).getD (j - pos) baselineColor
      = if j - pos < tk then c else tail.getD (j - pos - tk) baselineColor := by
    rw [hdec]
    exact getD_replicate_append c baselineColor tk tail (j - pos)
  rw [hlen, hget]
  by_cases hj : pos ≤ j
  · by_cases h2 : j - pos < tk
    · rw [if_pos h2]
      constructor
      · rintro (hcov | ⟨h1, _, _⟩)
        · by_cases hb : c = baselineColor
          · rw [if_pos hb] at hcov
            exact absurd hcov (coveredAt_nil j)
          · rw [if_neg hb] at hcov
            exact ⟨hj, by omega, hb⟩
        · exact absurd h1 (by omega)
      · rintro ⟨_, _, h3⟩
        left
        rw [if_neg h3, coveredAt_singleton]
        exact ⟨hj, by omega⟩
    · rw [if_neg h2]
      have harith : j - pos - tk = j - (pos + tk) := by omega
      rw [harith]
      constructor
      · rintro (hcov | ⟨h1, h2b, h3⟩)
        · by_cases hb : c = baselineColor
          · rw [if_pos hb] at hcov
            exact absurd hcov (coveredAt_nil j)
          · rw [if_neg hb] at hcov
            rw [coveredAt_singleton] at hcov
            omega
        · exact ⟨hj, by omega, h3⟩
      · rintro ⟨h1, h2b, h3⟩
        right
        exact ⟨by omega, by omega, h3⟩
  · constructor
    · rintro (hcov | ⟨h1, _, _⟩)
      · by_cases hb : c = baselineColor
        · rw [if_pos hb] at hcov
          exact absurd hcov (coveredAt_nil j)
        · rw [if_neg hb] at hcov
          rw [coveredAt_singleton] at hcov
          omega
      · exact absurd h1 (by omega)
    · rintro ⟨h1, _, _⟩
      exact absurd h1 hj

/-- Coverage: the emitted runs cover a position exactly when the cell there
exists and its effective color pair differs from the baseline. -/
theorem coveredAt_specRunsFrom (cs : List (String × String)) (pos : Nat) :
    ∀ j, coveredAt (specRunsFrom cs pos) j ↔ runCover cs pos j := by
  induction cs, pos using specRunsFrom.induct with
  | case1 pos =>
    intro j
    rw [specRunsFrom]
    unfold runCover
    simp only [List.length_nil]
    constructor
    · intro h
      exact absurd h (coveredAt_nil j)
    · rintro ⟨_, h2, _⟩
      omega
  | case2 rest pos k tail ih => exact coverage_step baselineColor rest pos ih
  | case3 c rest pos k tail hc ih => exact coverage_step c rest pos ih

/-- Inductive step shared by both branches of the run-property proof. -/
theorem runs_step (c : String × String) (rest : List (String × String)) (pos : Nat)
    (ih : ∀ p ∈ specRunsFrom (rest.dropWhile (fun x => decide (x = c)))
        (pos + ((rest.takeWhile (fun x => decide (x = c))).length + 1)), runProps
          (rest.dropWhile (fun x => decide (x = c)))
          (pos + ((rest.takeWhile (fun x => decide (x = c))).length + 1)) p) :
    ∀ p ∈ specRunsFrom (c :: rest) pos, runProps (c :: rest) pos p := by
  intro p hp
  rw [specRunsFrom_cons] at hp
  set tk := (rest.takeWhile (fun x => decide (x = c))).length + 1 with htk
  set tail := rest.dropWhile (fun x => decide (x = c)) with htail
  have hk1 : 1 ≤ tk := by omega
  have hdec : c :: rest = List.replicate tk c ++ tail := cons_eq_replicate_append c rest
  have hlen : (c :: rest).length = tk + tail.length := by
    rw [hdec, List.length_append, List.length_replicate]
  have hget : ∀ m, (c :: rest).getD m baselineColor
      = if m < tk then c else tail.getD (m - tk) baselineColor := by
    intro m
    rw [hdec]
    exact getD_replicate_append c baselineColor tk tail m
  rcases List.mem_append.mp hp with h1 | h1
  · by_cases hb : c = baselineColor
    · rw [if_pos hb] at h1
      simp at h1
    · rw [if_neg hb, List.mem_singleton] at h1
      subst h1
      refine ⟨hb, ?_, Nat.le_refl pos, ?_, ?_⟩
      · show 1 ≤ tk
        omega
      · show pos + tk ≤ pos + (c :: rest).length
        rw [hlen]
        omega
      · intro j hj1 hj2
        have hj1p : pos ≤ j := hj1
        have hj2p : j < pos + tk := hj2
        show (c :: rest).getD (j - pos) baselineColor = c
        rw [hget (j - pos), if_pos (by omega)]
  · have hprops := ih p h1
    unfold runProps at hprops ⊢
    obtain ⟨hc1, hc2, hc3, hc4, hc5⟩ := hprops
    refine ⟨hc1, hc2, by omega, by rw [hlen]; omega, ?_⟩
    intro j hj1 hj2
    rw [hget (j - pos), if_neg (by omega)]
    have harith : j - pos - tk = j - (pos + tk) := by omega
    rw [harith]
    exact hc5 j hj1 hj2

/-- Every emitted run satisfies `runProps`. -/
theorem specRunsFrom_runs (cs : List (String × String)) (pos : Nat) :
    ∀ p ∈ specRunsFrom cs pos, runProps cs pos p := by
  induction cs, pos using specRunsFrom.induct with
  | case1 pos =>
    intro p hp
    rw [specRunsFrom] at hp
    simp at hp
  | case2 rest pos k tail ih => exact runs_step baselineColor rest pos ih
  | case3 c rest pos k tail hc ih => exact runs_step c rest pos ih

/-- A run starting at the very first remaining position carries the color
of the first cell. -/
theorem specRunsFrom_first (cs : List (String × String)) (pos : Nat) :
    ∀ p ∈ specRunsFrom cs pos, p.1 = pos → p.2.color = cs.getD 0 baselineColor := by
  cases cs with
  | nil =>
    intro p hp
    rw [specRunsFrom] at hp
    simp at hp
  | cons c rest =>
    intro p hp hpos
    rw [specRunsFrom_cons] at hp
    rcases List.mem_append.mp hp with h1 | h1
    · by_cases hb : c = baselineColor
      · rw [if_pos hb] at h1
        simp at h1
      · rw [if_neg hb, List.mem_singleton] at h1
        subst h1
        rw [List.getD_cons_zero]
    · have hprops := specRunsFrom_runs _ _ p h1
      have := hprops.2.2.1
      omega

/-- Maximal merge: two emitted runs whose spans touch never share a color
pair. -/
theorem specRunsFrom_adjacent (cs : List (String × String)) (pos : Nat) :
    ∀ p q, p ∈ specRunsFrom cs pos → q ∈ specRunsFrom cs pos →
      q.1 = p.1 + p.2.field_length → q.2.color ≠ p.2.color := by
  induction cs, pos using specRunsFrom.induct with
  | case1 pos =>
    intro p q hp hq heq
    rw [specRunsFrom] at hp
    simp at hp
  | case2 rest pos k tail ih =>
    intro p q hp hq heq
    rw [specRunsFrom_cons, if_pos rfl, List.nil_append] at hp hq
    exact ih p q hp hq heq
  | case3 c rest pos k tail hc ih =>
    intro p q hp hq heq
    rw [specRunsFrom_cons, if_neg hc] at hp hq
    rcases List.mem_append.mp hp with hp1 | hp1 <;>
      rcases List.mem_append.mp hq with hq1 | hq1
    · rw [List.mem_singleton] at hp1 hq1
      subst hp1
      subst hq1
      simp only at heq
      omega
    · rw [List.mem_singleton] at hp1
      subst hp1
      simp only at heq
      have hqprops := specRunsFrom_runs _ _ q hq1
      have hq1len : 1 ≤ (rest.dropWhile (fun x => decide (x = c))).length := by
        have h1 := hqprops.2.1
        have h2 := hqprops.2.2.2.1
        omega
      cases htail : rest.dropWhile (fun x => decide (x = c)) with
      | nil => rw [htail] at hq1len; simp at hq1len
      | cons x xs =>
        have hhead : (rest.dropWhile (fun x => decide (x = c))).head? = some x := by
          rw [htail]
          rfl
        have hxc : x ≠ c := by
          simpa using dropWhile_head_ne (fun y => decide (y = c)) rest x hhead
        have hqcol := specRunsFrom_first _ _ q hq1 (by omega)
        rw [htail, List.getD_cons_zero] at hqcol
        simpa [hqcol] using hxc
    · rw [List.mem_singleton] at hq1
      subst hq1
      simp only at heq
      have hpprops := specRunsFrom_runs _ _ p hp1
      have h1 := hpprops.2.1
      have h2 := hpprops.2.2.1
      omega
    · exact ih p q hp1 hq1 heq

/-- A list whose cells are all baseline-colored produces no runs. -/
theorem specRunsFrom_nil_of_baseline (cs : List (String × String)) (pos : Nat) :
    (∀ x ∈ cs, x = baselineColor) → specRunsFrom cs pos = [] := by
  induction cs, pos using specRunsFrom.induct with
  | case1 pos =>
    intro _
    rw [specRunsFrom]
  | case2 rest pos k tail ih =>
    intro h
    rw [specRunsFrom_cons, if_pos rfl, List.nil_append]
    apply ih
    intro x hx
    exact h x (List.mem_cons_of_mem _ ((List.dropWhile_sublist _).subset hx))
  | case3 c rest pos k tail hc ih =>
    intro h
    exact absurd (h c (List.mem_cons_self c rest)) hc

theorem find?_map_overwrite (cm : ColorMap) (k : Nat) (v : RowMap) :
    (cm.map (fun p => if p.1 = k then (k, v) else p)).find? (fun p => decide (p.1 = k))
      = if cm.any (fun p => decide (p.1 = k)) then some (k, v) else none := by
  induction cm with
  | nil => simp
  | cons q rest ih =>
    rw [List.map_cons]
    by_cases hq : q.1 = k
    · rw [if_pos hq, List.find?_cons_of_pos _ (by simp), List.any_cons, if_pos (by simp [hq])]
    · rw [if_neg hq, List.find?_cons_of_neg _ (by simp [hq]), ih, List.any_cons]
      have hdq : decide (q.1 = k) = false := by simp [hq]
      rw [hdq, Bool.false_or]

theorem find?_map_overwrite_ne (cm : ColorMap) (k : Nat) (v : RowMap) (k2 : Nat)
    (hne : k2 ≠ k) :
    (cm.map (fun p => if p.1 = k then (k, v) else p)).find? (fun p => decide (p.1 = k2))
      = cm.find? (fun p => decide (p.1 = k2)) := by
  induction cm with
  | nil => simp
  | cons q rest ih =>
    rw [List.map_cons]
    by_cases hq : q.1 = k
    · rw [if_pos hq, List.find?_cons_of_neg _ (by simp; exact fun h => hne h.symm),
        List.find?_cons_of_neg _ (by simp [hq]; exact fun h => hne h.symm)]
      exact ih
    · rw [if_neg hq]
      by_cases hq2 : q.1 = k2
      · rw [List.find?_cons_of_pos _ (by simp [hq2]), List.find?_cons_of_pos _ (by simp [hq2])]
      · rw [List.find?_cons_of_neg _ (by simp [hq2]), List.find?_cons_of_neg _ (by simp [hq2])]
        exact ih

theorem cmLookup_cmSet_self (cm : ColorMap) (k : Nat) (v : RowMap) :
    cmLookup (cmSet cm k v) k = some v := by
  unfold cmSet cmLookup
  by_cases h : cm.any (fun p => decide (p.1 = k)) = true
  · rw [if_pos h, find?_map_overwrite, if_pos h]
    rfl
  · rw [if_neg h, List.find?_append]
    have h1 : cm.find? (fun p => decide (p.1 = k)) = none := by
      rw [List.find?_eq_none]
      intro x hx hxk
      apply h
      rw [List.any_eq_true]
      exact ⟨x, hx, hxk⟩
    rw [h1]
    simp

theorem cmLookup_cmSet_ne (cm : ColorMap) (k : Nat) (v : RowMap) (k2 : Nat)
    (hne : k2 ≠ k) : cmLookup (cmSet cm k v) k2 = cmLookup cm k2 := by
  unfold cmSet cmLookup
  by_cases h : cm.any (fun p => decide (p.1 = k)) = true
  · rw [if_pos h, find?_map_overwrite_ne cm k v k2 hne]
  · rw [if_neg h, List.find?_append]
    have h1 : List.find? (fun p => decide (p.1 = k2)) [(k, v)] = none := by
      rw [List.find?_eq_none]
      intro x hx
      rw [List.mem_singleton] at hx
      subst hx
      simp
      exact fun h2 => hne h2.symm
    rw [h1]
    simp

/-- Rows whose index is never processed keep their (absent) entry. -/
theorem convertLoop_lookup_notMem (buffer : List (List TChar)) (lines : List Nat)
    (idx : Nat) (hmem : idx ∉ lines) :
    ∀ cm, cmLookup (convertLoop buffer lines cm) idx = cmLookup cm idx := by
  induction lines with
  | nil =>
    intro cm
    rfl
  | cons j rest ih =>
    intro cm
    have hj : idx ≠ j := fun h => hmem (h ▸ List.mem_cons_self j rest)
    have hrest : idx ∉ rest := fun h => hmem (List.mem_cons_of_mem j h)
    simp only [convertLoop]
    by_cases hb : buffer.length ≤ j
    · rw [if_pos hb]
    · rw [if_neg hb]
      by_cases hres : processLine (buffer.getD j []) ((cmLookup cm j).getD []) = []
      · rw [if_pos hres, ih hrest cm]
      · rw [if_neg hres, ih hrest]
        exact cmLookup_cmSet_ne cm j _ idx hj

/-- Characterization of the compressor output at a processed index: when
every passed index lies within the buffer and the indices are distinct, the
entry of a processed row is exactly its spec-side run list — absent when
that list is empty. -/
theorem convertLoop_lookup (buffer : List (List TChar)) (lines : List Nat) (idx : Nat) :
    ∀ cm, (∀ j ∈ lines, j < buffer.length) → lines.Nodup → idx ∈ lines →
      cmLookup cm idx = none →
      cmLookup (convertLoop buffer lines cm) idx
        = if specRuns (buffer.getD idx []) = [] then none
          else some (specRuns (buffer.getD idx [])) := by
  induction lines with
  | nil =>
    intro cm _ _ hmem _
    simp at hmem
  | cons j rest ih =>
    intro cm hrange hnd hmem hnone
    simp only [convertLoop]
    rw [if_neg (by push_neg; exact hrange j (List.mem_cons_self j rest))]
    rcases List.mem_cons.mp hmem with hj | hj
    · subst hj
      have hnotrest : idx ∉ rest := (List.nodup_cons.mp hnd).1
      rw [hnone]
      have hgd : (none : Option RowMap).getD [] = [] := rfl
      rw [hgd, processLine_eq_specRuns]
      by_cases hempty : specRuns (buffer.getD idx []) = []
      · rw [if_pos hempty, convertLoop_lookup_notMem buffer rest idx hnotrest, hnone,
          if_pos hempty]
      · rw [if_neg hempty, convertLoop_lookup_notMem buffer rest idx hnotrest,
          cmLookup_cmSet_self, if_neg hempty]
    · have hj2 : idx ≠ j := by
        intro h
        subst h
        exact (List.nodup_cons.mp hnd).1 hj
      have hnd2 : rest.Nodup := (List.nodup_cons.mp hnd).2
      have hrange2 : ∀ i ∈ rest, i < buffer.length :=
        fun i hi => hrange i (List.mem_cons_of_mem j hi)
      by_cases hres : processLine (buffer.getD j []) ((cmLookup cm j).getD []) = []
      · rw [if_pos hres]
        exact ih cm hrange2 hnd2 hj hnone
      · rw [if_neg hres]
        exact ih _ hrange2 hnd2 hj (by rw [cmLookup_cmSet_ne cm j _ idx hj2]; exact hnone)

theorem count_eq_one_of_mem_of_nodup {α : Type} [BEq α] [LawfulBEq α] {l : List α}
    {a : α} (hnd : l.Nodup) (hmem : a ∈ l) : l.count a = 1 := by
  induction l with
  | nil => simp at hmem
  | cons x xs ih =>
    rw [List.count_cons]
    rcases List.mem_cons.mp hmem with h | h
    · subst h
      have hnot : a ∉ xs := (List.nodup_cons.mp hnd).1
      rw [List.count_eq_zero.mpr hnot]
      simp
    · have hx : x ∉ xs := (List.nodup_cons.mp hnd).1
      have hax : ¬(x == a) = true := by
        simp only [beq_iff_eq]
        intro hxa
        rw [hxa] at hx
        exact hx h
      rw [if_neg hax, ih (List.nodup_cons.mp hnd).2 h]

theorem getD_map_effColor (row : List TChar) (j : Nat) (h : j < row.length) :
    (row.map effColor).getD j baselineColor = effColor (row.getD j default) := by
  induction row generalizing j with
  | nil => simp at h
  | cons a as ih =>
    cases j with
    | zero => simp
    | succ j =>
      rw [List.map_cons, List.getD_cons_succ, List.getD_cons_succ]
      exact ih j (by simpa using h)

/-- C1 (amended): for every row index in the dirty set passed to the
color-run compressor — all of which are required to lie within the buffer,
because the compressor executes `break` at the first out-of-buffer index —
the emitted runs cover exactly the spans of cells whose effective color
pair differs from the baseline, each run records that pair and its length,
and no two adjacent runs share a color pair.  The dirty set is a set, so
the index list is `Nodup`. -/
theorem spec_C1 (buffer : List (List TChar)) (lines : List Nat) (idx : Nat)
    (hrange : ∀ j ∈ lines, j < buffer.length) (hnd : lines.Nodup) (hmem : idx ∈ lines) :
    C1Prop buffer lines idx := by
  have hlk := convertLoop_lookup buffer lines idx [] hrange hnd hmem rfl
  have hruns : (cmLookup (convert_pyte_buffer_to_colormap buffer lines) idx).getD []
      = specRuns (buffer.getD idx []) := by
    unfold convert_pyte_buffer_to_colormap
    rw [hlk]
    by_cases h : specRuns (buffer.getD idx []) = []
    · rw [if_pos h, h]
      rfl
    · rw [if_neg h]
      rfl
  refine ⟨hruns, ?_, ?_, ?_⟩
  · intro j
    rw [hruns]
    unfold specRuns
    rw [coveredAt_specRunsFrom ((buffer.getD idx []).map effColor) 0 j]
    unfold runCover
    simp only [Nat.zero_le, true_and, Nat.sub_zero, List.length_map]
    constructor
    · rintro ⟨h1, h2⟩
      refine ⟨h1, ?_⟩
      rw [← getD_map_effColor _ _ h1]
      exact h2
    · rintro ⟨h1, h2⟩
      refine ⟨h1, ?_⟩
      rw [getD_map_effColor _ _ h1]
      exact h2
  · intro p hp
    rw [hruns] at hp
    unfold specRuns at hp
    obtain ⟨hc1, hc2, hc3, hc4, hc5⟩ := specRunsFrom_runs _ _ p hp
    refine ⟨hc1, hc2, by simpa using hc4, ?_⟩
    intro j hj1 hj2
    have hjlen : j < (buffer.getD idx []).length := by
      simp only [List.length_map, Nat.zero_add] at hc4
      omega
    have hcol := hc5 j hj1 hj2
    rw [Nat.sub_zero, getD_map_effColor _ _ hjlen] at hcol
    exact hcol
  · intro p q hp hq heq
    rw [hruns] at hp hq
    unfold specRuns at hp hq
    exact specRunsFrom_adjacent _ _ p q hp hq heq

/-- C1 counterexample: the compressor executes `break` (not `continue`) at
the first index beyond the buffer, so with dirty set iterated as `[5, 0]`
over a one-row buffer, row 0 — which lies within the buffer and contains a
non-baseline red cell — receives no runs at all: the claimed exact
coverage fails at cell 0 of row 0. -/
theorem spec_C1_counterexample :
    0 ∈ ([5, 0] : List Nat) ∧
    0 < ([[redChar]] : List (List TChar)).length ∧
    effColor redChar ≠ baselineColor ∧
    ¬ coveredAt ((cmLookup (convert_pyte_buffer_to_colormap [[redChar]] [5, 0]) 0).getD []) 0 := by
  decide

theorem spec_C1_witness : C1Prop [[redChar]] [0] 0 :=
  spec_C1 [[redChar]] [0] 0 (by decide) (by decide) (by decide)

/-- C7 counterexample: a nonempty row entirely in the baseline color
produces NO key in the emitted color map (the key is absent), contradicting
the claim that the key is present with an empty run mapping. -/
theorem spec_C7_counterexample :
    (([[defaultChar]] : List (List TChar)).getD 0 []).length ≠ 0 ∧
    (∀ c ∈ ([[defaultChar]] : List (List TChar)).getD 0 [], effColor c = baselineColor) ∧
    cmLookup (convert_pyte_buffer_to_colormap [[defaultChar]] [0]) 0 = none := by
  decide

/-- C7 (amended): for every row (zero-length or not) whose cells are all in
the baseline color, the color-run compressor leaves that row's key ABSENT
from the produced map — the key is created only when a non-baseline run is
inserted.  (The synchronizer still clears old highlights because region
removal runs unconditionally for every dirty row.) -/
theorem spec_C7_amended (buffer : List (List TChar)) (lines : List Nat) (idx : Nat)
    (hrange : ∀ j ∈ lines, j < buffer.length) (hnd : lines.Nodup) (hmem : idx ∈ lines)
    (hbase : ∀ c ∈ buffer.getD idx [], effColor c = baselineColor) :
    cmLookup (convert_pyte_buffer_to_colormap buffer lines) idx = none := by
  have hlk := convertLoop_lookup buffer lines idx [] hrange hnd hmem rfl
  unfold convert_pyte_buffer_to_colormap
  rw [hlk, if_pos]
  unfold specRuns
  apply specRunsFrom_nil_of_baseline
  intro x hx
  rw [List.mem_map] at hx
  obtain ⟨c, hc, rfl⟩ := hx
  exact hbase c hc

theorem spec_C7_amended_witness :
    cmLookup (convert_pyte_buffer_to_colormap [[defaultChar], [defaultChar]] [0, 1]) 1
      = none :=
  spec_C7_amended [[defaultChar], [defaultChar]] [0, 1] 1
    (by decide) (by decide) (by decide) (by decide)

theorem setUnion_mem (a b : List Nat) (x : Nat) :
    x ∈ setUnion a b ↔ x ∈ a ∨ x ∈ b := by
  unfold setUnion
  rw [List.mem_append, List.mem_filter]
  constructor
  · rintro (h | ⟨h, _⟩)
    · exact Or.inl h
    · exact Or.inr h
  · rintro (h | h)
    · exact Or.inl h
    · by_cases ha : x ∈ a
      · exact Or.inl ha
      · exact Or.inr ⟨h, by simpa using ha⟩

theorem setUnion_nodup (a b : List Nat) (ha : a.Nodup) (hb : b.Nodup) :
    (setUnion a b).Nodup := by
  unfold setUnion
  rw [List.nodup_append]
  refine ⟨ha, List.Nodup.filter _ hb, ?_⟩
  intro x hxa hxf
  have := (List.mem_filter.mp hxf).2
  simp only [decide_eq_true_eq] at this
  exact this hxa

theorem nextPage_dirty (e : EmuState) : (nextPage e).dirty = e.dirty := by
  unfold nextPage
  split <;> rfl

theorem nextPage_display (e : EmuState) : (nextPage e).display = e.display := by
  unfold nextPage
  split <;> rfl

theorem nextPage_size (e : EmuState) : (nextPage e).size = e.size := by
  unfold nextPage
  split <;> rfl

theorem nextPage_lines (e : EmuState) : (nextPage e).lines = e.lines := by
  unfold nextPage
  split <;> rfl

theorem scroll_to_bottom_dirty (e : EmuState) :
    (scroll_to_bottom e).dirty = e.dirty := by
  induction e using scroll_to_bottom.induct with
  | case1 e h ih =>
    rw [scroll_to_bottom, dif_pos h, ih, nextPage_dirty]
  | case2 e h =>
    rw [scroll_to_bottom, dif_neg h]

theorem scroll_to_bottom_display (e : EmuState) :
    (scroll_to_bottom e).display = e.display := by
  induction e using scroll_to_bottom.induct with
  | case1 e h ih =>
    rw [scroll_to_bottom, dif_pos h, ih, nextPage_display]
  | case2 e h =>
    rw [scroll_to_bottom, dif_neg h]

theorem scroll_to_bottom_size (e : EmuState) :
    (scroll_to_bottom e).size = e.size := by
  induction e using scroll_to_bottom.induct with
  | case1 e h ih =>
    rw [scroll_to_bottom, dif_pos h, ih, nextPage_size]
  | case2 e h =>
    rw [scroll_to_bottom, dif_neg h]

theorem scroll_to_bottom_lines (e : EmuState) :
    (scroll_to_bottom e).lines = e.lines := by
  induction e using scroll_to_bottom.induct with
  | case1 e h ih =>
    rw [scroll_to_bottom, dif_pos h, ih, nextPage_lines]
  | case2 e h =>
    rw [scroll_to_bottom, dif_neg h]

/-- The scroll-to-bottom loop terminates with the paging position at
`size`, for any state respecting the paging invariant
`position ∈ [0, size]`. -/
theorem scroll_to_bottom_position (e : EmuState) (h : e.position ≤ e.size) :
    (scroll_to_bottom e).position = e.size := by
  induction e using scroll_to_bottom.induct with
  | case1 e h1 ih =>
    rw [scroll_to_bottom, dif_pos h1]
    have hnp : (nextPage e).position ≤ (nextPage e).size := by
      simp only [nextPage, if_pos h1]
      show e.position + min (e.size - e.position) (max 1 e.pageStep) ≤ e.size
      omega
    rw [ih hnp, nextPage_size]
  | case2 e h1 =>
    rw [scroll_to_bottom, dif_neg h1]
    omega

/-- C3: on every call to feed, the paging position is forced to `size`
(live) before any byte is interpreted: `feed` is exactly the protocol
engine applied to the scrolled state, and the (terminating)
`scroll_to_bottom` loop establishes `position = size` while mutating no
cell, no dirty row and no display row. -/
theorem spec_C3 (interp : EmuState → List Nat → EmuState) (e : EmuState)
    (data : List Nat) (h : e.position ≤ e.size) :
    feedWith interp e data = interp (scroll_to_bottom e) data ∧
    (scroll_to_bottom e).position = e.size ∧
    (scroll_to_bottom e).size = e.size ∧
    (scroll_to_bottom e).dirty = e.dirty ∧
    (scroll_to_bottom e).display = e.display :=
  ⟨rfl, scroll_to_bottom_position e h, scroll_to_bottom_size e,
    scroll_to_bottom_dirty e, scroll_to_bottom_display e⟩

theorem spec_C3_witness :
    feedWith (fun (s : EmuState) (_ : List Nat) => s) sampleEmu []
      = (fun (s : EmuState) (_ : List Nat) => s) (scroll_to_bottom sampleEmu) [] ∧
    (scroll_to_bottom sampleEmu).position = sampleEmu.size ∧
    (scroll_to_bottom sampleEmu).size = sampleEmu.size ∧
    (scroll_to_bottom sampleEmu).dirty = sampleEmu.dirty ∧
    (scroll_to_bottom sampleEmu).display = sampleEmu.display :=
  spec_C3 (fun (s : EmuState) (_ : List Nat) => s) sampleEmu [] (by decide)

/-- C4: `resize(rows, cols)` forces the live position and marks dirty every
row index from 0 up to `max(rows, previousRows)` (exclusive); shrinking
from N rows to M rows makes `dirty_lines()` map each removed index
`M..N-1` to `None` exactly once, and growing marks all rows of the new
height dirty (the second conjunct with `max newLines e.lines = newLines`). -/
theorem spec_C4 (e : EmuState) (newLines newCols : Nat) (h : e.position ≤ e.size)
    (hnd : e.dirty.Nodup) : C4Prop e newLines newCols := by
  have hlines : (scroll_to_bottom e).lines = e.lines := scroll_to_bottom_lines e
  have hdirty : (emuResize e newLines newCols).dirty
      = setUnion e.dirty (List.range (max newLines e.lines)) := by
    unfold emuResize resizeScreen
    simp only [scroll_to_bottom_dirty, hlines]
  have hdisplay : (emuResize e newLines newCols).display.length = newLines := by
    unfold emuResize resizeScreen
    simp
  refine ⟨?_, ?_, ?_⟩
  · unfold emuResize resizeScreen
    simp only []
    show (scroll_to_bottom e).position = (scroll_to_bottom e).size
    rw [scroll_to_bottom_position e h, scroll_to_bottom_size e]
  · intro i hi
    rw [hdirty]
    exact (setUnion_mem e.dirty _ i).mpr (Or.inr (List.mem_range.mpr hi))
  · intro i hi1 hi2
    have hginj : Function.Injective (fun i : Nat =>
        ((i, if (emuResize e newLines newCols).display.length ≤ i then none
             else some ((emuResize e newLines newCols).display.getD i "")) : Nat × Option String)) := by
      intro a b hab
      simpa using congrArg Prod.fst hab
    have hnd2 : (emuResize e newLines newCols).dirty.Nodup := by
      rw [hdirty]
      exact setUnion_nodup e.dirty _ hnd (List.nodup_range _)
    have hmemd : i ∈ (emuResize e newLines newCols).dirty := by
      rw [hdirty]
      refine (setUnion_mem e.dirty _ i).mpr (Or.inr (List.mem_range.mpr ?_))
      omega
    have hperm := List.perm_insertionSort (· ≤ ·) (emuResize e newLines newCols).dirty
    have hmem : i ∈ List.insertionSort (· ≤ ·) (emuResize e newLines newCols).dirty :=
      hperm.mem_iff.mpr hmemd
    unfold dirty_lines
    apply count_eq_one_of_mem_of_nodup
    · exact List.Nodup.map hginj (hperm.nodup_iff.mpr hnd2)
    · rw [List.mem_map]
      refine ⟨i, hmem, ?_⟩
      rw [hdisplay, if_pos hi1]

theorem spec_C4_witness : C4Prop sampleEmu 1 80 :=
  spec_C4 sampleEmu 1 80 (by decide) (by decide)

/-- C10: the emulator's `cursor()` is total — when the screen reports no
cursor object it returns `(0, 0)`, and otherwise it returns the
`(row, col)` pair `(cursor.y, cursor.x)`. -/
theorem spec_C10 (e : EmuState) :
    (e.cursorObj = none → emuCursor e = (0, 0)) ∧
    (∀ p, e.cursorObj = some p → emuCursor e = (p.2, p.1)) := by
  constructor
  · intro h
    unfold emuCursor
    rw [h]
  · intro p h
    unfold emuCursor
    rw [h]

theorem spec_C10_witness :
    emuCursor { sampleEmu with cursorObj := none } = (0, 0) :=
  (spec_C10 { sampleEmu with cursorObj := none }).1 rfl

theorem alLookup_alSet_self {β : Type} (m : List (Nat × β)) (k : Nat) (v : β) :
    alLookup (alSet m k v) k = some v := by
  unfold alSet alLookup
  by_cases h : m.any (fun p => decide (p.1 = k)) = true
  · rw [if_pos h]
    induction m with
    | nil => simp at h
    | cons q rest ih =>
      rw [List.map_cons]
      by_cases hq : q.1 = k
      · rw [if_pos hq, List.find?_cons_of_pos _ (by simp)]
        rfl
      · rw [if_neg hq, List.find?_cons_of_neg _ (by simp [hq])]
        rw [List.any_cons] at h
        simp only [hq, decide_False, Bool.false_or] at h
        exact ih h
  · rw [if_neg h, List.find?_append]
    have h1 : m.find? (fun p => decide (p.1 = k)) = none := by
      rw [List.find?_eq_none]
      intro x hx hxk
      apply h
      rw [List.any_eq_true]
      exact ⟨x, hx, hxk⟩
    rw [h1]
    simp

theorem updateCursor_fst (s : St) :
    (updateCursor s).1
      = { s with view := { s.view with lastCursorPos := some (emuCursor s.emu) } } := by
  simp only [updateCursor]
  cases h : s.view.lastCursorPos with
  | none => rfl
  | some l =>
    dsimp only
    by_cases hl : l = emuCursor s.emu
    · rw [if_pos hl]
      show s = _
      have h2 : some (emuCursor s.emu) = s.view.lastCursorPos := by
        rw [h, hl]
      rw [h2]
    · rw [if_neg hl]

theorem updateCursor_edits (s : St) :
    (updateCursor s).2
      = if s.view.lastCursorPos = some (emuCursor s.emu) then []
        else [Edit.setCursor (emuCursor s.emu).1 (emuCursor s.emu).2] := by
  simp only [updateCursor]
  cases h : s.view.lastCursorPos with
  | none =>
    dsimp only
    rw [if_neg (by simp)]
  | some l =>
    dsimp only
    by_cases hl : l = emuCursor s.emu
    · rw [if_pos hl, if_pos (by rw [hl])]
    · rw [if_neg hl, if_neg (by intro hh; exact hl (Option.some_inj.mp hh))]

theorem dirty_lines_nil_iff (e : EmuState) : dirty_lines e = [] ↔ e.dirty = [] := by
  unfold dirty_lines
  rw [List.map_eq_nil_iff]
  constructor
  · intro h
    have hp := List.perm_insertionSort (· ≤ ·) e.dirty
    have hl := hp.length_eq
    rw [h] at hl
    exact List.eq_nil_of_length_eq_zero hl.symm
  · intro h
    rw [h]
    rfl

theorem updateScrolling_scrollReq (s s1 : St) (h : updateScrolling s = Except.ok s1) :
    s1.view.scrollReq = none := by
  unfold updateScrolling at h
  cases hr : s.view.scrollReq with
  | none =>
    rw [hr] at h
    injection h with h2
    rw [← h2]
    exact hr
  | some gd =>
    obtain ⟨g, d⟩ := gd
    rw [hr] at h
    cases g with
    | line => simp at h
    | page =>
      injection h with h2
      rw [← h2]

theorem updateLineColors_ctl (n : Nat) (rm : RowMap) :
    ∀ v : ViewState,
      (updateLineColors v n rm).1.scrollReq = v.scrollReq ∧
      (updateLineColors v n rm).1.lastCursorPos = v.lastCursorPos ∧
      (updateLineColors v n rm).1.showColors = v.showColors := by
  induction rm with
  | nil =>
    intro v
    exact ⟨rfl, rfl, rfl⟩
  | cons p rest ih =>
    intro v
    simp only [updateLineColors]
    exact ih { v with colorRegions := registerColorRegion v.colorRegions n (regionKey n p.1) }

theorem processDirtyLine_ctl (v : ViewState) (cm : ColorMap) (n : Nat)
    (content : Option String) :
    (processDirtyLine v cm n content).1.scrollReq = v.scrollReq ∧
    (processDirtyLine v cm n content).1.lastCursorPos = v.lastCursorPos ∧
    (processDirtyLine v cm n content).1.showColors = v.showColors := by
  unfold processDirtyLine
  cases hcm : cmLookup cm n with
  | none => exact ⟨rfl, rfl, rfl⟩
  | some rm => exact updateLineColors_ctl n rm _

theorem updateLinesGo_ctl (cm : ColorMap) (dl : List (Nat × Option String))
    (ks : List Nat) :
    ∀ v : ViewState,
      (updateLinesGo cm dl ks v).1.scrollReq = v.scrollReq ∧
      (updateLinesGo cm dl ks v).1.lastCursorPos = v.lastCursorPos ∧
      (updateLinesGo cm dl ks v).1.showColors = v.showColors := by
  induction ks with
  | nil =>
    intro v
    exact ⟨rfl, rfl, rfl⟩
  | cons n rest ih =>
    intro v
    simp only [updateLinesGo]
    obtain ⟨h1, h2, h3⟩ := ih (processDirtyLine v cm n (dlLookup dl n)).1
    obtain ⟨g1, g2, g3⟩ := processDirtyLine_ctl v cm n (dlLookup dl n)
    exact ⟨h1.trans g1, h2.trans g2, h3.trans g3⟩

/-- After a successful pre-cursor phase the dirty set is empty and the
scroll request is consumed. -/
theorem preCursor_after (s s2 : St) (es : List Edit)
    (h : preCursor s = Except.ok (s2, es)) :
    s2.emu.dirty = ∅ ∧ s2.view.scrollReq = none := by
  unfold preCursor at h
  cases hsc : updateScrolling s with
  | error e =>
    rw [hsc] at h
    simp at h
  | ok s1 =>
    rw [hsc] at h
    dsimp only at h
    by_cases hdl : 0 < (dirty_lines s1.emu).length
    · rw [if_pos hdl] at h
      injection h with h2
      have hs2 := congrArg Prod.fst h2
      simp only at hs2
      rw [← hs2]
      constructor
      · rfl
      · show (updateLines _ _ _).1.scrollReq = none
        unfold updateLines
        rw [(updateLinesGo_ctl _ _ _ _).1]
        exact updateScrolling_scrollReq s s1 hsc
    · rw [if_neg hdl] at h
      injection h with h2
      have hs2 := congrArg Prod.fst h2
      simp only at hs2
      rw [← hs2]
      constructor
      · have : dirty_lines s1.emu = [] := by
          cases hn : dirty_lines s1.emu with
          | nil => rfl
          | cons a l =>
            rw [hn] at hdl
            simp at hdl
        exact (dirty_lines_nil_iff s1.emu).mp this
      · exact updateScrolling_scrollReq s s1 hsc

/-- A state with no queued scroll, no dirty rows and an up-to-date recorded
cursor is a fixed point of the render pass emitting no edits. -/
theorem renderPass_stable (t : St) (h1 : t.view.scrollReq = none)
    (h2 : t.emu.dirty = ∅) (h3 : t.view.lastCursorPos = some (emuCursor t.emu)) :
    renderPass t = Except.ok (t, []) := by
  have hsc : updateScrolling t = Except.ok t := by
    unfold updateScrolling
    rw [h1]
  have hdl : dirty_lines t.emu = [] := (dirty_lines_nil_iff t.emu).mpr h2
  have hpc : preCursor t = Except.ok (t, []) := by
    unfold preCursor
    rw [hsc]
    dsimp only
    rw [hdl]
    dsimp only [List.length_nil]
    rw [if_neg (by omega)]
  have huc : updateCursor t = (t, []) := by
    simp only [updateCursor]
    rw [h3]
    dsimp only
    rw [if_pos rfl]
  unfold renderPass
  rw [hpc]
  dsimp only
  rw [huc]
  rfl

/-- C2: running a render pass twice with no intervening feed, scroll or
resize produces zero edits the second time — after any successful pass the
dirty set is empty, the recorded cursor position equals the cursor, the
scroll request is consumed, and the pass is idempotent from that state. -/
theorem spec_C2 (s s1 : St) (es : List Edit)
    (h : renderPass s = Except.ok (s1, es)) : C2Prop s1 := by
  unfold renderPass at h
  cases hpc : preCursor s with
  | error e =>
    rw [hpc] at h
    simp at h
  | ok r =>
    obtain ⟨s2, es2⟩ := r
    rw [hpc] at h
    dsimp only at h
    injection h with h2
    have hs1 : s1 = (updateCursor s2).1 := by
      have h3 := congrArg Prod.fst h2
      simp only at h3
      exact h3.symm
    obtain ⟨hd, hsr⟩ := preCursor_after s s2 es2 hpc
    rw [hs1, updateCursor_fst]
    refine ⟨hd, (dirty_lines_nil_iff _).mpr hd, rfl, ?_⟩
    exact renderPass_stable _ hsr hd rfl

theorem spec_C2_witness : C2Prop sampleStAfter :=
  spec_C2 sampleSt sampleStAfter
    [Edit.setViewport, Edit.replace 0 0 "hi\n",
     Edit.addRegions "0,0" 0 1 "terminalview.black_red", Edit.setCursor 0 1]
    (by rfl)

theorem removeColorRegions_noCursor (cr : List (Nat × List String)) (n : Nat) :
    ∀ e ∈ (removeColorRegionsOnLine cr n).2, e.isCursor = false := by
  intro e he
  unfold removeColorRegionsOnLine at he
  cases h : alLookup cr n with
  | none =>
    rw [h] at he
    simp at he
  | some dq =>
    rw [h] at he
    dsimp only at he
    rw [List.mem_map] at he
    obtain ⟨k, _, rfl⟩ := he
    rfl

theorem updateLineContent_noCursor (bc : List (Nat × String)) (n : Nat)
    (content : Option String) :
    ∀ e ∈ (updateLineContent bc n content).2, e.isCursor = false := by
  intro e he
  unfold updateLineContent at he
  cases content with
  | none =>
    dsimp only at he
    rw [List.mem_singleton] at he
    subst he
    rfl
  | some c =>
    dsimp only at he
    rw [List.mem_singleton] at he
    subst he
    rfl

theorem updateLineColors_noCursor (n : Nat) (rm : RowMap) :
    ∀ (v : ViewState), ∀ e ∈ (updateLineColors v n rm).2, e.isCursor = false := by
  induction rm with
  | nil =>
    intro v e he
    simp [updateLineColors] at he
  | cons p rest ih =>
    intro v e he
    simp only [updateLineColors] at he
    rcases List.mem_cons.mp he with h | h
    · subst h
      rfl
    · exact ih _ e h

theorem processDirtyLine_noCursor (v : ViewState) (cm : ColorMap) (n : Nat)
    (content : Option String) :
    ∀ e ∈ (processDirtyLine v cm n content).2, e.isCursor = false := by
  intro e he
  unfold processDirtyLine at he
  cases hcm : cmLookup cm n with
  | none =>
    rw [hcm] at he
    dsimp only at he
    rcases List.mem_append.mp he with h | h
    · exact removeColorRegions_noCursor _ n e h
    · exact updateLineContent_noCursor _ n content e h
  | some rm =>
    rw [hcm] at he
    dsimp only at he
    rcases List.mem_append.mp he with h | h
    · rcases List.mem_append.mp h with h2 | h2
      · exact removeColorRegions_noCursor _ n e h2
      · exact updateLineContent_noCursor _ n content e h2
    · exact updateLineColors_noCursor n rm _ e h

theorem updateLinesGo_noCursor (cm : ColorMap) (dl : List (Nat × Option String))
    (ks : List Nat) :
    ∀ (v : ViewState), ∀ e ∈ (updateLinesGo cm dl ks v).2, e.isCursor = false := by
  induction ks with
  | nil =>
    intro v e he
    simp [updateLinesGo] at he
  | cons n rest ih =>
    intro v e he
    simp only [updateLinesGo] at he
    rcases List.mem_append.mp he with h | h
    · exact processDirtyLine_noCursor v cm n _ e h
    · exact ih _ e h

/-- Everything emitted before the cursor phase is a text or region edit,
never a cursor placement. -/
theorem preCursor_noCursor (s s2 : St) (es : List Edit)
    (h : preCursor s = Except.ok (s2, es)) :
    ∀ e ∈ es, e.isCursor = false := by
  unfold preCursor at h
  cases hsc : updateScrolling s with
  | error e2 =>
    rw [hsc] at h
    simp at h
  | ok s1 =>
    rw [hsc] at h
    dsimp only at h
    by_cases hdl : 0 < (dirty_lines s1.emu).length
    · rw [if_pos hdl] at h
      injection h with h2
      have hes := congrArg Prod.snd h2
      simp only at hes
      rw [← hes]
      intro e he
      rcases List.mem_cons.mp he with h3 | h3
      · subst h3
        rfl
      · exact updateLinesGo_noCursor _ _ _ _ e h3
    · rw [if_neg hdl] at h
      injection h with h2
      have hes := congrArg Prod.snd h2
      simp only at hes
      rw [← hes]
      intro e he
      simp at he

/-- C5: in every successful render pass the edit list decomposes into the
pre-cursor edits — none of which is a cursor placement — followed by the
cursor phase, which emits at most one cursor edit, placed at the cursor
position, and emits it exactly when the cursor differs from the recorded
position at that point. -/
theorem spec_C5 (s s1 : St) (es : List Edit)
    (h : renderPass s = Except.ok (s1, es)) :
    ∃ s2 pre, preCursor s = Except.ok (s2, pre) ∧
      es = pre ++ (updateCursor s2).2 ∧
      (∀ e ∈ pre, e.isCursor = false) ∧
      ((updateCursor s2).2 = []
        ∨ (updateCursor s2).2
            = [Edit.setCursor (emuCursor s2.emu).1 (emuCursor s2.emu).2]) ∧
      ((updateCursor s2).2 = [] ↔ s2.view.lastCursorPos = some (emuCursor s2.emu)) := by
  unfold renderPass at h
  cases hpc : preCursor s with
  | error e =>
    rw [hpc] at h
    simp at h
  | ok r =>
    obtain ⟨s2, pre⟩ := r
    rw [hpc] at h
    dsimp only at h
    injection h with h2
    have hes := congrArg Prod.snd h2
    simp only at hes
    refine ⟨s2, pre, rfl, hes.symm, preCursor_noCursor s s2 pre hpc, ?_, ?_⟩
    · rw [updateCursor_edits]
      by_cases hcp : s2.view.lastCursorPos = some (emuCursor s2.emu)
      · rw [if_pos hcp]
        exact Or.inl rfl
      · rw [if_neg hcp]
        exact Or.inr rfl
    · rw [updateCursor_edits]
      by_cases hcp : s2.view.lastCursorPos = some (emuCursor s2.emu)
      · rw [if_pos hcp]
        exact ⟨fun _ => hcp, fun _ => rfl⟩
      · rw [if_neg hcp]
        constructor
        · intro hco
          exact absurd hco (by simp)
        · intro hco
          exact absurd hco hcp

theorem spec_C5_witness :
    ∃ s2 pre, preCursor sampleSt = Except.ok (s2, pre) ∧
      [Edit.setViewport, Edit.replace 0 0 "hi\n",
        Edit.addRegions "0,0" 0 1 "terminalview.black_red", Edit.setCursor 0 1]
        = pre ++ (updateCursor s2).2 ∧
      (∀ e ∈ pre, e.isCursor = false) ∧
      ((updateCursor s2).2 = []
        ∨ (updateCursor s2).2
            = [Edit.setCursor (emuCursor s2.emu).1 (emuCursor s2.emu).2]) ∧
      ((updateCursor s2).2 = [] ↔ s2.view.lastCursorPos = some (emuCursor s2.emu)) :=
  spec_C5 sampleSt sampleStAfter
    [Edit.setViewport, Edit.replace 0 0 "hi\n",
      Edit.addRegions "0,0" 0 1 "terminalview.black_red", Edit.setCursor 0 1]
    (by rfl)

theorem foldl_range_cachedLen (bc : List (Nat × String)) (n : Nat) :
    (List.range n).foldl (fun acc i => match alLookup bc i with
      | some s => acc + s.length
      | none => acc) 0 = ∑ i ∈ Finset.range n, cachedLen bc i := by
  induction n with
  | zero => simp
  | succ n ih =>
    rw [List.range_succ, List.foldl_append]
    simp only [List.foldl_cons, List.foldl_nil]
    rw [ih, Finset.sum_range_succ]
    cases halk : alLookup bc n <;> simp [cachedLen, halk]

/-- C6: within a render pass the dirty rows are processed in strictly
ascending index order (the processing order is the sorted key list, and the
dirty keys are distinct), and a row's buffer start offset is the sum of the
cached lengths of all cached rows with strictly lower index, the end offset
adding the row's own cached length. -/
theorem spec_C6 :
    (∀ dl : List (Nat × Option String), (dl.map Prod.fst).Nodup →
      List.Sorted (· < ·) (processOrder dl)) ∧
    (∀ e : EmuState, e.dirty.Nodup → ((dirty_lines e).map Prod.fst).Nodup) ∧
    (∀ (bc : List (Nat × String)) (n : Nat),
      (getLineStartAndEnd bc n).1 = ∑ i ∈ Finset.range n, cachedLen bc i ∧
      (getLineStartAndEnd bc n).2
        = (∑ i ∈ Finset.range n, cachedLen bc i) + cachedLen bc n) := by
  refine ⟨?_, ?_, ?_⟩
  · intro dl hnd
    have hs := List.sorted_insertionSort (· ≤ ·) (dl.map Prod.fst)
    have hnd2 : (processOrder dl).Nodup :=
      ((List.perm_insertionSort (· ≤ ·) (dl.map Prod.fst)).nodup_iff).mpr hnd
    exact List.Pairwise.imp (fun hab => lt_of_le_of_ne hab.1 hab.2) (hs.and hnd2)
  · intro e hnd
    unfold dirty_lines
    have hcomp : (Prod.fst ∘ fun i : Nat =>
        ((i, if e.display.length ≤ i then none
             else some (e.display.getD i "")) : Nat × Option String)) = id := rfl
    rw [List.map_map, hcomp, List.map_id]
    exact ((List.perm_insertionSort (· ≤ ·) e.dirty).nodup_iff).mpr hnd
  · intro bc n
    constructor
    · unfold getLineStartAndEnd
      dsimp only
      exact foldl_range_cachedLen bc n
    · unfold getLineStartAndEnd
      dsimp only
      rw [foldl_range_cachedLen bc n]
      cases halk : alLookup bc n <;> simp [cachedLen, halk]

theorem spec_C6_witness :
    List.Sorted (· < ·) (processOrder [(2, some "a"), (0, none)]) :=
  spec_C6.1 [(2, some "a"), (0, none)] (by decide)

/-- C8 counterexample: with a queued line-granularity scroll request the
render pass calls `prev_line`/`next_line`, which `PyteTerminalEmulator`
does not define, so the pass raises instead of applying any paging
operation — the emulator does not provide the claimed line operations. -/
theorem spec_C8_counterexample :
    lineReqSt.view.scrollReq = some (Gran.line, ScrollDir.up) ∧
    renderPass lineReqSt = Except.error "AttributeError" :=
  ⟨rfl, rfl⟩

/-- C8 (amended): the emulator provides only the page-granularity
operations: a queued page request is applied via `prev_page`/`next_page`
(which keep the offset within `[0, size]`) and is cleared, while a queued
line-granularity request raises `AttributeError` in the render pass — the
wrapper defines no `prev_line`/`next_line`. -/
theorem spec_C8_amended :
    (∀ (s : St) (d : ScrollDir), s.view.scrollReq = some (Gran.line, d) →
      updateScrolling s = Except.error "AttributeError") ∧
    (∀ s : St, s.view.scrollReq = some (Gran.page, ScrollDir.up) →
      updateScrolling s
        = Except.ok ⟨prevPage s.emu, { s.view with scrollReq := none }⟩) ∧
    (∀ s : St, s.view.scrollReq = some (Gran.page, ScrollDir.down) →
      updateScrolling s
        = Except.ok ⟨nextPage s.emu, { s.view with scrollReq := none }⟩) ∧
    (∀ e : EmuState, e.position ≤ e.size →
      (prevPage e).position ≤ e.size ∧ (nextPage e).position ≤ e.size) := by
  refine ⟨?_, ?_, ?_, ?_⟩
  · intro s d h
    unfold updateScrolling
    rw [h]
  · intro s h
    unfold updateScrolling
    rw [h]
  · intro s h
    unfold updateScrolling
    rw [h]
  · intro e h
    constructor
    · show e.position - max 1 e.pageStep ≤ e.size
      omega
    · unfold nextPage
      by_cases hc : e.position < e.size
      · rw [if_pos hc]
        show e.position + min (e.size - e.position) (max 1 e.pageStep) ≤ e.size
        omega
      · rw [if_neg hc]
        exact h

theorem spec_C8_amended_witness :
    updateScrolling pageReqSt
      = Except.ok ⟨prevPage pageReqSt.emu, { pageReqSt.view with scrollReq := none }⟩ :=
  spec_C8_amended.2.1 pageReqSt rfl

/-- C9 counterexample: registering keys `"a"` then `"b"` on a row pushes
with `appendleft` and removal pops with `popleft`, so the keys are removed
in the order `["b", "a"]` — the reverse of registration order, not FIFO. -/
theorem spec_C9_counterexample :
    (removeColorRegionsOnLine
        (registerColorRegion (registerColorRegion [] 0 "a") 0 "b") 0).2
      = [Edit.eraseRegions "b", Edit.eraseRegions "a"] ∧
    ([Edit.eraseRegions "b", Edit.eraseRegions "a"] : List Edit)
      ≠ [Edit.eraseRegions "a", Edit.eraseRegions "b"] := by
  constructor
  · rfl
  · decide

theorem regFold_lookup (n : Nat) (ks : List String) :
    ∀ (cr : List (Nat × List String)) (dq : List String),
      alLookup cr n = some dq →
      alLookup (ks.foldl (fun cr k => registerColorRegion cr n k) cr) n
        = some (ks.reverse ++ dq) := by
  induction ks with
  | nil =>
    intro cr dq h
    simpa using h
  | cons k rest ih =>
    intro cr dq h
    simp only [List.foldl_cons]
    have hreg : registerColorRegion cr n k = alSet cr n (k :: dq) := by
      unfold registerColorRegion
      rw [h]
    rw [hreg, ih (alSet cr n (k :: dq)) (k :: dq) (alLookup_alSet_self cr n (k :: dq)),
      List.reverse_cons, List.append_assoc]
    rfl

/-- C9 (amended): the per-row region keys are tracked in a deque where
registration pushes at the front (`appendleft`) and removal pops from the
front (`popleft`), so removing a row's regions processes the keys in
REVERSE registration order (last registered, first removed); every
registered key is removed. -/
theorem spec_C9_amended (ks : List String) (n : Nat) :
    (removeColorRegionsOnLine
        (ks.foldl (fun cr k => registerColorRegion cr n k) []) n).2
      = ks.reverse.map Edit.eraseRegions := by
  cases ks with
  | nil => rfl
  | cons k rest =>
    simp only [List.foldl_cons]
    have h0 : registerColorRegion ([] : List (Nat × List String)) n k = [(n, [k])] := rfl
    rw [h0]
    have h1 : alLookup [(n, [k])] n = some [k] := by
      unfold alLookup
      rw [List.find?_cons_of_pos _ (by simp)]
      rfl
    have h2 := regFold_lookup n rest [(n, [k])] [k] h1
    unfold removeColorRegionsOnLine
    rw [h2]
    dsimp only
    rw [List.reverse_cons]

end TerminalView
